import Mathlib

/-!
Shallow embedding of the crambuddy-server ingestion/retrieval core
(chunker, surrogate vectorizer, retrieval engine, ingestion pipeline),
translated from the TypeScript source.  JavaScript strings are modelled as
lists of characters, JavaScript numbers as exact rationals (reals where a
square root is taken), rejected promises as an explicit error constructor,
and external calls (LLM, database) as explicit oracle inputs.
-/

set_option maxHeartbeats 1000000

namespace CramBuddy

/-- JavaScript strings are modelled as lists of characters. -/
abbrev Str := List Char

/-- Whitespace test backing the model of String.prototype.trim and of
splitting on whitespace runs (ASCII whitespace suffices for this model). -/
def isWs (c : Char) : Bool := c = ' ' || c = '\t' || c = '\n' || c = '\r'

/-- Model of String.prototype.trim: drop whitespace from both ends. -/
def trim (s : Str) : Str := ((s.dropWhile isWs).reverse.dropWhile isWs).reverse

/-- Model of JavaScript s.slice(-n) for n > 0: the last n characters,
or the whole string when it is shorter than n. -/
def takeLast (n : Nat) (s : Str) : Str := s.drop (s.length - n)

-- ---------------------------------------------------------------------------
-- Chunker (chunker.ts)
-- ---------------------------------------------------------------------------

/-- Sentence terminators of the chunker's sentence regex [^.!?]+[.!?]+ . -/
def isTerm (c : Char) : Bool := c = '.' || c = '!' || c = '?'

/-- Model of text.replace(/\r\n/g, a newline): left-to-right, non-overlapping. -/
def replaceCrlf : Str → Str
  | [] => []
  | '\r' :: '\n' :: rest => '\n' :: replaceCrlf rest
  | c :: rest => c :: replaceCrlf rest

/-- Model of text.replace of runs of three or more newlines by exactly two,
scanning maximal newline runs left to right. -/
def collapseNewlines : Str → Str
  | [] => []
  | '\n' :: rest =>
    (if 2 ≤ (rest.takeWhile (fun c => c = '\n')).length then ['\n', '\n']
     else '\n' :: rest.takeWhile (fun c => c = '\n')) ++
      collapseNewlines (rest.dropWhile (fun c => c = '\n'))
  | c :: rest => c :: collapseNewlines rest
termination_by s => s.length
decreasing_by
  · simp only [List.length_cons]
    exact Nat.lt_succ_of_le (rest.dropWhile_sublist _).length_le
  · simp

/-- Model of cleanedText.split on runs of two or more newlines: pieces between
maximal runs, keeping empty boundary pieces exactly as JavaScript split does. -/
def splitParas : Str → List Str
  | [] => [[]]
  | '\n' :: '\n' :: rest =>
    [] :: splitParas (rest.dropWhile (fun c => c = '\n'))
  | c :: rest =>
    match splitParas rest with
    | [] => [[c]]
    | p :: ps => (c :: p) :: ps
termination_by s => s.length
decreasing_by
  · simp only [List.length_cons]
    exact Nat.lt_succ_of_lt (Nat.lt_succ_of_le (rest.dropWhile_sublist _).length_le)
  · simp

/-- All matches of the sentence regex [^.!?]+[.!?]+ in order: a match is a
maximal run of non-terminators followed by a maximal run of terminators;
unmatched characters (leading terminators, a trailing run with no
terminator) are dropped, as the regex engine drops them. -/
def sentencesAux (s : Str) : List Str :=
  if h : ((s.dropWhile isTerm).takeWhile (fun c => !isTerm c)).isEmpty
      || (((s.dropWhile isTerm).dropWhile (fun c => !isTerm c)).takeWhile isTerm).isEmpty
  then []
  else
    ((s.dropWhile isTerm).takeWhile (fun c => !isTerm c) ++
        ((s.dropWhile isTerm).dropWhile (fun c => !isTerm c)).takeWhile isTerm) ::
      sentencesAux (((s.dropWhile isTerm).dropWhile (fun c => !isTerm c)).dropWhile isTerm)
termination_by s.length
decreasing_by
  simp only [Bool.or_eq_true, List.isEmpty_iff, not_or] at h
  have h1 : (((s.dropWhile isTerm).dropWhile (fun c => !isTerm c)).dropWhile isTerm).length
      < ((s.dropWhile isTerm).dropWhile (fun c => !isTerm c)).length := by
    rcases hr : (s.dropWhile isTerm).dropWhile (fun c => !isTerm c) with _ | ⟨c, t⟩
    · rw [hr] at h
      simp at h
    · have hc : isTerm c = true := by
        by_contra hcf
        rw [hr] at h
        simp [List.takeWhile, hcf] at h
      rw [List.dropWhile, hc]
      exact Nat.lt_succ_of_le (t.dropWhile_sublist isTerm).length_le
  have h2 : ((s.dropWhile isTerm).dropWhile (fun c => !isTerm c)).length
      ≤ (s.dropWhile isTerm).length := ((s.dropWhile isTerm).dropWhile_sublist _).length_le
  have h3 : (s.dropWhile isTerm).length ≤ s.length := (s.dropWhile_sublist isTerm).length_le
  omega

/-- Model of text.match of the sentence regex with the source's fallback
(sentences or the whole text when there is no match). -/
def sentences (text : Str) : List Str :=
  match sentencesAux text with
  | [] => [text]
  | l => l

/-- hardSplit from chunker.ts: consecutive slices of length chunkSize.  The
source's for loop never terminates when chunkSize = 0 and the text is
non-empty; the model returns the whole text there (every claim about
hardSplit assumes a positive chunk size). -/
def hardSplit (text : Str) (chunkSize : Nat) : List Str :=
  if text.isEmpty then []
  else if chunkSize = 0 then [text]
  else if text.length ≤ chunkSize then [text]
  else text.take chunkSize :: hardSplit (text.drop chunkSize) chunkSize
termination_by text.length
decreasing_by
  simp only [List.length_drop, List.isEmpty_iff] at *
  omega

/-- One iteration of the sentence loop of splitLongParagraph, on the state
(chunks so far, current chunk).  Mirrors the source line by line: greedy
packing with a single space as separator, sealing the current chunk when the
next sentence does not fit, hard-splitting an over-long sentence and keeping
the last hard fragment as the new current chunk. -/
def slpStep (chunkSize : Nat) (st : List Str × Str) (sentence : Str) : List Str × Str :=
  if st.2.length + (trim sentence).length + 1 ≤ chunkSize then
    (st.1, st.2 ++ (if st.2.isEmpty then [] else [' ']) ++ trim sentence)
  else
    (if (trim sentence).length > chunkSize then
      ((if st.2.isEmpty then st.1 else st.1 ++ [st.2]) ++
          (hardSplit (trim sentence) chunkSize).dropLast,
        ((hardSplit (trim sentence) chunkSize).getLast?).getD [])
    else
      ((if st.2.isEmpty then st.1 else st.1 ++ [st.2]), trim sentence))

/-- splitLongParagraph from chunker.ts: split an over-long paragraph by
sentences, greedily packing them; the overlap parameter of the source is
accepted and (as in the source) never used. -/
def splitLongParagraph (text : Str) (chunkSize : Nat) (overlap : Nat) : List Str :=
  match (sentences text).foldl (slpStep chunkSize) ([], []) with
  | (chunks, cur) => if cur.isEmpty then chunks else chunks ++ [cur]

/-- One iteration of the paragraph loop of chunkText, on the state
(chunks so far, current chunk): skip blank paragraphs, greedily pack with a
blank line (two characters) as separator, seal the current chunk when the
paragraph does not fit, and delegate over-long paragraphs to
splitLongParagraph, keeping its last piece as the new current chunk. -/
def ctStep (chunkSize overlap : Nat) (st : List Str × Str) (para : Str) : List Str × Str :=
  if (trim para).isEmpty then st
  else if st.2.length + (trim para).length + 2 ≤ chunkSize then
    (st.1, st.2 ++ (if st.2.isEmpty then [] else ['\n', '\n']) ++ trim para)
  else
    (if (trim para).length > chunkSize then
      ((if st.2.isEmpty then st.1 else st.1 ++ [st.2]) ++
          (splitLongParagraph (trim para) chunkSize overlap).dropLast,
        ((splitLongParagraph (trim para) chunkSize overlap).getLast?).getD [])
    else
      ((if st.2.isEmpty then st.1 else st.1 ++ [st.2]), trim para))

/-- The chunks array chunkText builds before the final applyOverlap call:
clean the text, split into paragraphs, and run the paragraph loop. -/
def preOverlapChunks (text : Str) (chunkSize overlap : Nat) : List Str :=
  if (trim text).isEmpty then []
  else
    match (splitParas (trim (collapseNewlines (replaceCrlf text)))).foldl
        (ctStep chunkSize overlap) ([], []) with
    | (chunks, cur) => if cur.isEmpty then chunks else chunks ++ [cur]

/-- The body of the overlap loop of applyOverlap for every index after the
first: each emitted chunk is the last overlap characters of the previous
pre-overlap chunk, the literal separator, then the chunk itself. -/
def applyOverlapGo (overlap : Nat) (prev : Str) : List Str → List Str
  | [] => []
  | c :: rest => (takeLast overlap prev ++ (" ... ").toList ++ c) :: applyOverlapGo overlap c rest

/-- applyOverlap from chunker.ts: identity when overlap is zero or there is
at most one chunk, otherwise every chunk after the first is prefixed with
the previous pre-overlap chunk's last overlap characters and the separator. -/
def applyOverlap (chunks : List Str) (overlap : Nat) : List Str :=
  if overlap = 0 || chunks.length ≤ 1 then chunks
  else
    match chunks with
    | [] => []
    | c :: rest => c :: applyOverlapGo overlap c rest

/-- chunkText from chunker.ts (the source defaults are chunkSize 500 and
overlap 50): empty-after-trim input yields no chunks, otherwise the
paragraph/sentence/hard segmentation followed by overlap injection. -/
def chunkText (text : Str) (chunkSize overlap : Nat) : List Str :=
  applyOverlap (preOverlapChunks text chunkSize overlap) overlap

-- ---------------------------------------------------------------------------
-- Surrogate vectorizer and AI cleanup (gemini.ts)
-- ---------------------------------------------------------------------------

/-- Model of text.split on whitespace runs, with JavaScript's boundary
behavior: leading or trailing whitespace yields an empty piece, and the
empty string yields one empty piece. -/
def splitWs : Str → List Str
  | [] => [[]]
  | [c] => if isWs c then [[], []] else [[c]]
  | c :: d :: rest =>
    if isWs c then
      if isWs d then splitWs (d :: rest)
      else [] :: splitWs (d :: rest)
    else
      match splitWs (d :: rest) with
      | [] => [[c]]
      | p :: ps => (c :: p) :: ps

/-- Model of text.toLowerCase, character by character (ASCII case mapping,
as Lean's Char.toLower implements it). -/
def toLower (s : Str) : Str := s.map Char.toLower

/-- Model of spreading a JavaScript Set built from a list: the distinct
elements in order of first occurrence. -/
def dedupFirst (l : List Str) : List Str :=
  l.foldl (fun acc w => if w ∈ acc then acc else acc ++ [w]) []

/-- Model of vector[idx] += x on a JavaScript numeric array. -/
def addAt (v : List ℚ) (idx : Nat) (x : ℚ) : List ℚ := v.set idx (v.getD idx 0 + x)

/-- The dimension of the surrogate embedding. -/
def vectorDim : Nat := 768

/-- The un-normalized surrogate embedding vector of generateEmbedding:
start from 768 zeros; for each unique lowercased word at position i and
each of its characters at position j with code c, add 1/|uniqueWords| at
index (c * (i+1) * (j+1)) mod 768. -/
def rawEmbedding (text : Str) : List ℚ :=
  (dedupFirst (splitWs (toLower text))).enum.foldl
    (fun v iw =>
      iw.2.enum.foldl
        (fun v' jc =>
          addAt v' ((jc.2.toNat * (iw.1 + 1) * (jc.1 + 1)) % vectorDim)
            (1 / ((dedupFirst (splitWs (toLower text))).length : ℚ)))
        v)
    (List.replicate vectorDim 0)

/-- Model of vector.reduce of summed squares (over the exact rationals). -/
def sumSq (v : List ℚ) : ℚ := v.foldl (fun s x => s + x * x) 0

/-- Sum of squares of a real vector: the square of its Euclidean norm. -/
def normSq (v : List ℝ) : ℝ := v.foldl (fun s x => s + x * x) 0

/-- generateEmbedding from gemini.ts: build the hash-based surrogate vector,
then divide by its Euclidean norm when that is positive, else return the
vector (all zeros) unchanged.  The floating-point square root is modelled
as the exact real square root. -/
noncomputable def generateEmbedding (text : Str) : List ℝ :=
  if 0 < Real.sqrt ((sumSq (rawEmbedding text) : ℚ) : ℝ) then
    (rawEmbedding text).map
      (fun x : ℚ => (x : ℝ) / Real.sqrt ((sumSq (rawEmbedding text) : ℚ) : ℝ))
  else
    (rawEmbedding text).map (fun x : ℚ => (x : ℝ))

/-- cleanOcrText from gemini.ts.  The single LLM call is an oracle input:
error when the call rejects, ok none when it resolves with no content, ok
some s when it resolves with content s (JavaScript's falsy check also sends
empty content to the fallback).  The function's own try/catch returns the
input text on any failure, so its result is always ok — it never rejects. -/
def cleanOcrText (call : Except Unit (Option Str)) (messyText : Str) : Except Unit Str :=
  match call with
  | .ok (some s) => .ok (if s.isEmpty then messyText else s)
  | .ok none => .ok messyText
  | .error _ => .ok messyText

-- ---------------------------------------------------------------------------
-- Retrieval engine and keyword fallback (retrieval.ts)
-- ---------------------------------------------------------------------------

/-- A persisted chunk row as the retrieval queries read it, with the fields
selected from its owning document (courseCode, confidence) inlined. -/
structure StoredChunk where
  id : String
  documentId : String
  content : Str
  docCourseCode : Option String
  docConfidence : String
  embedding : Option (List ℚ)
deriving DecidableEq

/-- One scored retrieval hit, as retrieval.ts shapes it. -/
structure ChunkWithScore where
  id : String
  documentId : String
  content : Str
  confidence : String
  score : ℚ
deriving DecidableEq

/-- A retrieval result: ranked chunks plus the aggregate confidence label. -/
structure RetrievalResult where
  chunks : List ChunkWithScore
  confidence : String
deriving DecidableEq

/-- cosineSimilarity from retrieval.ts, parametric in the square-root
routine (Math.sqrt on floats has no exact rational counterpart; no claim
depends on its values): 0 on mismatched lengths or zero magnitude, else
dot product over the product of norms. -/
def cosineSimilarity (sqrtQ : ℚ → ℚ) (a b : List ℚ) : ℚ :=
  if a.length ≠ b.length then 0
  else
    if sqrtQ ((a.zip b).foldl (fun s p => s + p.1 * p.1) 0) *
        sqrtQ ((a.zip b).foldl (fun s p => s + p.2 * p.2) 0) = 0 then 0
    else
      ((a.zip b).foldl (fun s p => s + p.1 * p.2) 0) /
        (sqrtQ ((a.zip b).foldl (fun s p => s + p.1 * p.1) 0) *
          sqrtQ ((a.zip b).foldl (fun s p => s + p.2 * p.2) 0))

/-- The map body of retrieveRelevantChunks: score one stored chunk against
the query embedding (the source parses the chunk's JSON vector, known
non-null from the query's where clause; the model reads it directly). -/
def scoreChunk (sqrtQ : ℚ → ℚ) (queryEmbedding : List ℚ) (c : StoredChunk) : ChunkWithScore :=
  { id := c.id, documentId := c.documentId, content := c.content,
    confidence := c.docConfidence,
    score := cosineSimilarity sqrtQ queryEmbedding (c.embedding.getD []) }

/-- Stable insertion of a scored chunk into a descending-sorted list: the
new element goes after every element of score greater than or equal to its
own, as JavaScript's stable sort with comparator b.score - a.score orders
equal scores by original position. -/
def insertDesc (x : ChunkWithScore) : List ChunkWithScore → List ChunkWithScore
  | [] => [x]
  | y :: ys => if y.score < x.score then x :: y :: ys else y :: insertDesc x ys

/-- Model of array.sort with comparator b.score - a.score: stable,
descending by score. -/
def sortByScoreDesc (l : List ChunkWithScore) : List ChunkWithScore :=
  l.foldl (fun acc x => insertDesc x acc) []

/-- Arithmetic mean of the scores of a list of retrieval hits, as the
source computes it (0/0 = 0 in the rationals stands in for the NaN an empty
list produces in JavaScript, which compares false against every bound). -/
def meanScore (l : List ChunkWithScore) : ℚ :=
  l.foldl (fun s c => s + c.score) 0 / (l.length : ℚ)

/-- The aggregate confidence label of a mean score: strictly above 0.8 is
high, strictly above 0.5 is medium, everything else (0.5 itself included)
is low. -/
def confidenceOf (avg : ℚ) : String :=
  if (0.8 : ℚ) < avg then "high" else if (0.5 : ℚ) < avg then "medium" else "low"

/-- The try block of retrieveRelevantChunks.  The query embedding is an
input (generateEmbedding is a pure function of the query and never
rejects); the database read is an oracle that may fail, which is the only
step inside the try that can reject.  A courseCode of none models an absent
(or, equally falsy in the source, empty) course filter. -/
def retrieveBody (sqrtQ : ℚ → ℚ) (queryEmbedding : List ℚ)
    (dbRes : Except Unit (List StoredChunk)) (courseCode : Option String)
    (topK : Nat) : Except Unit RetrievalResult :=
  match dbRes with
  | .error e => .error e
  | .ok db =>
    match courseCode with
    | some cc =>
      if ((db.filter (fun c => c.embedding.isSome)).filter
          (fun c => c.docCourseCode == some cc)).isEmpty then
        .ok { chunks := [], confidence := "low" }
      else
        .ok { chunks := (sortByScoreDesc (((db.filter (fun c => c.embedding.isSome)).filter
                  (fun c => c.docCourseCode == some cc)).map
                  (scoreChunk sqrtQ queryEmbedding))).take topK,
              confidence := confidenceOf (meanScore
                ((sortByScoreDesc (((db.filter (fun c => c.embedding.isSome)).filter
                  (fun c => c.docCourseCode == some cc)).map
                  (scoreChunk sqrtQ queryEmbedding))).take topK)) }
    | none =>
      if (db.filter (fun c => c.embedding.isSome)).isEmpty then
        .ok { chunks := [], confidence := "low" }
      else
        .ok { chunks := (sortByScoreDesc ((db.filter (fun c => c.embedding.isSome)).map
                  (scoreChunk sqrtQ queryEmbedding))).take topK,
              confidence := confidenceOf (meanScore
                ((sortByScoreDesc ((db.filter (fun c => c.embedding.isSome)).map
                  (scoreChunk sqrtQ queryEmbedding))).take topK)) }

/-- retrieveRelevantChunks from retrieval.ts: the try block above with its
catch-all, which logs and returns an empty result with low confidence
instead of re-throwing. -/
def retrieveRelevantChunks (sqrtQ : ℚ → ℚ) (queryEmbedding : List ℚ)
    (dbRes : Except Unit (List StoredChunk)) (courseCode : Option String)
    (topK : Nat) : RetrievalResult :=
  match retrieveBody sqrtQ queryEmbedding dbRes courseCode topK with
  | .ok r => r
  | .error _ => { chunks := [], confidence := "low" }

/-- Substring test: does the needle occur contiguously in the haystack?
Models JavaScript String.prototype.includes. -/
def startsWithB : Str → Str → Bool
  | _, [] => true
  | [], _ :: _ => false
  | c :: cs, p :: ps => c = p && startsWithB cs ps

/-- Model of hay.includes(needle). -/
def containsSub (hay needle : Str) : Bool :=
  startsWithB hay needle ||
    match hay with
    | [] => false
    | _ :: t => containsSub t needle

/-- The query tokenization of searchChunksByKeyword: lowercase, split on
whitespace, keep words of length greater than 2. -/
def keywordsOf (query : Str) : List Str :=
  (splitWs (toLower query)).filter (fun k => 2 < k.length)

/-- searchChunksByKeyword from retrieval.ts: tokenize the query, read all
chunks (optionally narrowed by course code, none modelling an absent or
empty filter), give each chunk one point per query token (with
multiplicity) whose text occurs in the lowercased content, divide by the
token count, drop zero scores, sort descending (stable) and truncate. -/
def searchChunksByKeyword (query : Str) (courseCode : Option String) (limit : Nat)
    (db : List StoredChunk) : List ChunkWithScore :=
  ((sortByScoreDesc (((match courseCode with
      | some cc => db.filter (fun c => c.docCourseCode == some cc)
      | none => db : List StoredChunk).map
    (fun c =>
      { id := c.id, documentId := c.documentId, content := c.content,
        confidence := c.docConfidence,
        score := ((keywordsOf query).foldl
            (fun s k => if containsSub (toLower c.content) k then s + 1 else s) 0 : ℚ) /
          ((keywordsOf query).length : ℚ) })).filter
    (fun c => 0 < c.score))).take limit)

/-- The keyword search as the specification words it: the score counts
distinct query tokens found as substrings, divided by the number of query
tokens; the rest of the pipeline (exclusion of zero scores, stable
descending sort, truncation) is as in the source. -/
def searchChunksByKeywordSpec (query : Str) (courseCode : Option String) (limit : Nat)
    (db : List StoredChunk) : List ChunkWithScore :=
  ((sortByScoreDesc (((match courseCode with
      | some cc => db.filter (fun c => c.docCourseCode == some cc)
      | none => db : List StoredChunk).map
    (fun c =>
      { id := c.id, documentId := c.documentId, content := c.content,
        confidence := c.docConfidence,
        score := (((dedupFirst (keywordsOf query)).filter
            (fun k => containsSub (toLower c.content) k)).length : ℚ) /
          ((keywordsOf query).length : ℚ) })).filter
    (fun c => 0 < c.score))).take limit)

/-- The keyword search as the amended claim words it: the score counts the
query tokens, with multiplicity, found as substrings of the lowercased
content, divided by the number of query tokens. -/
def searchChunksByKeywordAmended (query : Str) (courseCode : Option String) (limit : Nat)
    (db : List StoredChunk) : List ChunkWithScore :=
  ((sortByScoreDesc (((match courseCode with
      | some cc => db.filter (fun c => c.docCourseCode == some cc)
      | none => db : List StoredChunk).map
    (fun c =>
      { id := c.id, documentId := c.documentId, content := c.content,
        confidence := c.docConfidence,
        score := (((keywordsOf query).filter
            (fun k => containsSub (toLower c.content) k)).length : ℚ) /
          ((keywordsOf query).length : ℚ) })).filter
    (fun c => 0 < c.score))).take limit)

-- ---------------------------------------------------------------------------
-- Ingestion pipeline (fileDetector.ts, pipeline.ts)
-- ---------------------------------------------------------------------------

/-- The file-type categories of fileDetector.ts. -/
inductive FileType where
  | pdf
  | image
  | audio
  | unknown
deriving DecidableEq

/-- Prefix test on character lists, modelling String.prototype.startsWith. -/
def hasPrefixB : Str → Str → Bool
  | _, [] => true
  | [], _ :: _ => false
  | c :: cs, p :: ps => c = p && hasPrefixB cs ps

/-- detectFileType from fileDetector.ts. -/
def detectFileType (mimeType : Str) : FileType :=
  if mimeType = ("application/pdf").toList then .pdf
  else if hasPrefixB mimeType (("image/").toList) then .image
  else if hasPrefixB mimeType (("audio/").toList) then .audio
  else .unknown

/-- One persisted chunk row as the pipeline's embedding loop creates it. -/
structure ChunkRecord where
  content : Str
  embedding : Option (List ℚ)
  chunkIndex : Nat
deriving DecidableEq

/-- What one run of processDocument persists: the document update (raw
text, cleaned text and confidence; a field is none when the run's final
document update does not write it), the created chunk rows in creation
order, and whether the run ended in the top-level catch (the model of a
failed ingestion). -/
structure PipelineResult where
  docConfidence : String
  docRawText : Option Str
  docCleanedText : Option Str
  chunks : List ChunkRecord
  failedCatch : Bool
deriving DecidableEq

/-- The provisional confidence the extraction step assigns per file type
(OCR and speech-to-text are the lossy, low-confidence extractors). -/
def provisionalConfidence : FileType → String
  | .pdf => "medium"
  | .image => "low"
  | .audio => "low"
  | .unknown => "medium"

/-- The Cleaning step of processDocument: for image or audio derived text,
call cleanOcrText and on its (always ok) result upgrade confidence to
medium; the catch branch keeping the provisional confidence mirrors the
source's try/catch, but is unreachable because cleanOcrText never rejects.
Other file types keep the raw text and the provisional confidence. -/
def cleaningStep (ft : FileType) (cleanupCall : Except Unit (Option Str))
    (rawText : Str) : Str × String :=
  if ft = FileType.image ∨ ft = FileType.audio then
    match cleanOcrText cleanupCall rawText with
    | .ok c => (c, "medium")
    | .error _ => (rawText, provisionalConfidence ft)
  else (rawText, provisionalConfidence ft)

/-- processDocument from pipeline.ts.  External effects are oracle inputs:
extractRes is the outcome of the extractor call for this file,
cleanupCall the outcome of the single LLM call inside cleanOcrText, and
embedCall i the outcome of generateEmbedding for chunk i.  An unsupported
file type or a rejected extraction reaches the top-level catch, which only
downgrades the persisted confidence to low.  Empty extracted text
short-circuits with empty text fields and low confidence.  For image and
audio files the cleaning step calls cleanOcrText — which never rejects, so
the medium upgrade on its result is unconditional and the surrounding
catch (which would keep the prior confidence) is unreachable.  The
embedding loop stores one row per chunk with its loop index, a failed
embedding stored as null. -/
def processDocument (mimeType : Str) (extractRes : Except Unit Str)
    (cleanupCall : Except Unit (Option Str)) (embedCall : Nat → Except Unit (List ℚ)) :
    PipelineResult :=
  if detectFileType mimeType = .unknown then
    { docConfidence := "low", docRawText := none, docCleanedText := none,
      chunks := [], failedCatch := true }
  else
    match extractRes with
    | .error _ =>
      { docConfidence := "low", docRawText := none, docCleanedText := none,
        chunks := [], failedCatch := true }
    | .ok rawText =>
      if (trim rawText).isEmpty then
        { docConfidence := "low", docRawText := some [], docCleanedText := some [],
          chunks := [], failedCatch := false }
      else
        { docConfidence := (cleaningStep (detectFileType mimeType) cleanupCall rawText).2,
          docRawText := some rawText,
          docCleanedText := some (cleaningStep (detectFileType mimeType) cleanupCall rawText).1,
          chunks := (chunkText (cleaningStep (detectFileType mimeType) cleanupCall rawText).1
              500 50).enum.map
            (fun ic =>
              { content := ic.2,
                embedding := match embedCall ic.1 with
                  | .ok v => some v
                  | .error _ => none,
                chunkIndex := ic.1 }),
          failedCatch := false }

/-- The option a JavaScript try/catch around a fallible call produces: the
value on success, null (none) on failure. -/
def okOrNone {α : Type} : Except Unit α → Option α
  | .ok v => some v
  | .error _ => none

-- ---------------------------------------------------------------------------
-- Helper lemmas
-- ---------------------------------------------------------------------------

/-- Folding a step that preserves an invariant preserves it. -/
theorem foldl_preserve {α β : Type} {P : β → Prop} (f : β → α → β)
    (hf : ∀ b a, P b → P (f b a)) : ∀ (l : List α) (b : β), P b → P (l.foldl f b) := by
  intro l
  induction l with
  | nil => exact fun b hb => hb
  | cons a t ih => exact fun b hb => ih _ (hf _ _ hb)

/-- The last element read with a default is a member of a non-empty list. -/
theorem getLastD_mem {α : Type} : ∀ (l : List α) (d : α), l ≠ [] → (l.getLast?).getD d ∈ l := by
  intro l
  induction l with
  | nil => intro d h; exact absurd rfl h
  | cons a t ih =>
    intro d h
    match t, ih with
    | [], _ => simp [List.getLast?]
    | b :: t', ih =>
      have := ih d (by simp)
      simp only [List.getLast?_cons_cons]
      simp only [List.getLast?_cons_cons] at this ⊢
      right
      exact this

/-- takeLast returns at most n characters. -/
theorem takeLast_length_le (n : Nat) (s : Str) : (takeLast n s).length ≤ n := by
  simp only [takeLast, List.length_drop]
  omega

/-- Every piece hardSplit emits has length at most the (positive) chunk size. -/
theorem hardSplit_length_le (t : Str) (n : Nat) (hn : 0 < n) :
    ∀ c ∈ hardSplit t n, c.length ≤ n := by
  intro c hc
  rw [hardSplit] at hc
  split at hc
  · simp at hc
  · split at hc
    · omega
    · split at hc
      · rename_i hlen
        simp only [List.mem_singleton] at hc
        subst hc
        exact hlen
      · rename_i hlen
        simp only [List.mem_cons] at hc
        rcases hc with hc | hc
        · subst hc
          simp only [List.length_take]
          omega
        · exact hardSplit_length_le _ n hn c hc
termination_by t.length
decreasing_by
  simp only [List.length_drop, List.isEmpty_iff] at *
  omega

/-- Every piece of hardSplit except the last has length exactly the chunk
size (the claim's hard-split exactness). -/
theorem hardSplit_dropLast_length (t : Str) (n : Nat) (hn : 0 < n) :
    ∀ c ∈ (hardSplit t n).dropLast, c.length = n := by
  intro c hc
  rw [hardSplit] at hc
  split at hc
  · simp at hc
  · split at hc
    · omega
    · split at hc
      · simp at hc
      · rename_i hne h0 hlen
        rcases hr : hardSplit (t.drop n) n with _ | ⟨d, r⟩
        · rw [hr] at hc
          simp at hc
        · rw [hr, List.dropLast_cons_of_ne_nil (by simp)] at hc
          simp only [List.mem_cons] at hc
          rcases hc with hc | hc
          · subst hc
            simp only [List.length_take]
            omega
          · exact hardSplit_dropLast_length (t.drop n) n hn c (by rw [hr]; simpa using hc)
termination_by t.length
decreasing_by
  simp only [List.length_drop, List.isEmpty_iff] at *
  omega

/-- hardSplit of a non-empty text is non-empty. -/
theorem hardSplit_ne_nil (t : Str) (n : Nat) (ht : t ≠ []) : hardSplit t n ≠ [] := by
  rw [hardSplit]
  split
  · rename_i h
    simp only [List.isEmpty_iff] at h
    exact absurd h ht
  · split
    · simp
    · split
      · simp
      · simp

/-- Concatenating hardSplit's pieces reconstructs the input exactly. -/
theorem hardSplit_flatten (t : Str) (n : Nat) (hn : 0 < n) : (hardSplit t n).flatten = t := by
  rw [hardSplit]
  split
  · rename_i h
    simp only [List.isEmpty_iff] at h
    simp [h]
  · split
    · omega
    · split
      · simp
      · have := hardSplit_flatten (t.drop n) n hn
        simp [this]
termination_by t.length
decreasing_by
  simp only [List.length_drop, List.isEmpty_iff] at *
  omega

/-- Every piece hardSplit emits is non-empty. -/
theorem hardSplit_mem_ne_nil (t : Str) (n : Nat) (hn : 0 < n) :
    ∀ c ∈ hardSplit t n, c ≠ [] := by
  intro c hc
  rw [hardSplit] at hc
  split at hc
  · simp at hc
  · split at hc
    · omega
    · split at hc
      · rename_i hne h0 hlen
        simp only [List.mem_singleton] at hc
        subst hc
        simpa [List.isEmpty_iff] using hne
      · rename_i hne h0 hlen
        simp only [List.mem_cons] at hc
        rcases hc with hc | hc
        · subst hc
          have : (t.take n).length = n := by
            simp only [List.length_take]
            omega
          intro hnil
          rw [hnil] at this
          simp at this
          omega
        · exact hardSplit_mem_ne_nil _ n hn c hc
termination_by t.length
decreasing_by
  simp only [List.length_drop, List.isEmpty_iff] at *
  omega

/-- The last piece of hardSplit of a non-empty text has length between 1
and the chunk size. -/
theorem hardSplit_getLast_bounds (t : Str) (n : Nat) (hn : 0 < n) (ht : t ≠ []) :
    1 ≤ (((hardSplit t n).getLast?).getD []).length ∧
      (((hardSplit t n).getLast?).getD []).length ≤ n := by
  have hmem : (((hardSplit t n).getLast?).getD []) ∈ hardSplit t n :=
    getLastD_mem _ _ (hardSplit_ne_nil t n ht)
  exact ⟨List.length_pos.mpr (hardSplit_mem_ne_nil t n hn _ hmem),
    hardSplit_length_le t n hn _ hmem⟩

/-- The sentence loop of splitLongParagraph keeps every sealed chunk and
the current chunk within the (positive) chunk size. -/
theorem slpStep_preserve (n : Nat) (hn : 0 < n) (st : List Str × Str) (s : Str)
    (h : (∀ c ∈ st.1, c.length ≤ n) ∧ st.2.length ≤ n) :
    (∀ c ∈ (slpStep n st s).1, c.length ≤ n) ∧ (slpStep n st s).2.length ≤ n := by
  rw [slpStep]
  split
  · rename_i hfit
    refine ⟨h.1, ?_⟩
    simp only [List.length_append]
    have : (if st.2.isEmpty then ([] : Str) else [' ']).length ≤ 1 := by
      split <;> simp
    omega
  · rename_i hfit
    have hchunks : ∀ c ∈ (if st.2.isEmpty then st.1 else st.1 ++ [st.2]), c.length ≤ n := by
      intro c hc
      split at hc
      · exact h.1 c hc
      · simp only [List.mem_append, List.mem_singleton] at hc
        rcases hc with hc | hc
        · exact h.1 c hc
        · subst hc
          exact h.2
    split
    · rename_i hlong
      constructor
      · intro c hc
        simp only [List.mem_append] at hc
        rcases hc with hc | hc
        · exact hchunks c hc
        · exact hardSplit_length_le _ n hn c ((List.dropLast_sublist _).subset hc)
      · show (((hardSplit (trim s) n).getLast?).getD []).length ≤ n
        by_cases hr : hardSplit (trim s) n = []
        · simp [hr]
        · exact hardSplit_length_le _ n hn _ (getLastD_mem _ _ hr)
    · rename_i hshort
      refine ⟨hchunks, ?_⟩
      show (trim s).length ≤ n
      omega

/-- Every chunk splitLongParagraph emits has length at most the (positive)
chunk size. -/
theorem splitLongParagraph_length_le (t : Str) (n ov : Nat) (hn : 0 < n) :
    ∀ c ∈ splitLongParagraph t n ov, c.length ≤ n := by
  intro c hc
  rw [splitLongParagraph] at hc
  have hfold := foldl_preserve (P := fun st : List Str × Str =>
      (∀ c ∈ st.1, c.length ≤ n) ∧ st.2.length ≤ n)
    (slpStep n) (fun st s hst => slpStep_preserve n hn st s hst)
    (sentences t) ([], []) (by simp)
  rcases hst : (sentences t).foldl (slpStep n) ([], []) with ⟨chunks, cur⟩
  rw [hst] at hfold hc
  simp only at hc
  split at hc
  · exact hfold.1 c hc
  · simp only [List.mem_append, List.mem_singleton] at hc
    rcases hc with hc | hc
    · exact hfold.1 c hc
    · subst hc
      exact hfold.2

/-- The paragraph loop of chunkText keeps every sealed chunk and the
current chunk within the (positive) chunk size. -/
theorem ctStep_preserve (n ov : Nat) (hn : 0 < n) (st : List Str × Str) (p : Str)
    (h : (∀ c ∈ st.1, c.length ≤ n) ∧ st.2.length ≤ n) :
    (∀ c ∈ (ctStep n ov st p).1, c.length ≤ n) ∧ (ctStep n ov st p).2.length ≤ n := by
  rw [ctStep]
  split
  · exact h
  · split
    · rename_i hskip hfit
      refine ⟨h.1, ?_⟩
      simp only [List.length_append]
      have : (if st.2.isEmpty then ([] : Str) else ['\n', '\n']).length ≤ 2 := by
        split <;> simp
      omega
    · rename_i hskip hfit
      have hchunks : ∀ c ∈ (if st.2.isEmpty then st.1 else st.1 ++ [st.2]), c.length ≤ n := by
        intro c hc
        split at hc
        · exact h.1 c hc
        · simp only [List.mem_append, List.mem_singleton] at hc
          rcases hc with hc | hc
          · exact h.1 c hc
          · subst hc
            exact h.2
      split
      · rename_i hlong
        constructor
        · intro c hc
          simp only [List.mem_append] at hc
          rcases hc with hc | hc
          · exact hchunks c hc
          · exact splitLongParagraph_length_le _ n ov hn c ((List.dropLast_sublist _).subset hc)
        · show (((splitLongParagraph (trim p) n ov).getLast?).getD []).length ≤ n
          by_cases hr : splitLongParagraph (trim p) n ov = []
          · simp [hr]
          · exact splitLongParagraph_length_le _ n ov hn _ (getLastD_mem _ _ hr)
      · rename_i hshort
        refine ⟨hchunks, ?_⟩
        show (trim p).length ≤ n
        omega

/-- Every pre-overlap chunk of chunkText has length at most the (positive)
chunk size. -/
theorem preOverlapChunks_length_le (text : Str) (n ov : Nat) (hn : 0 < n) :
    ∀ c ∈ preOverlapChunks text n ov, c.length ≤ n := by
  intro c hc
  rw [preOverlapChunks] at hc
  split at hc
  · simp at hc
  · have hfold := foldl_preserve (P := fun st : List Str × Str =>
        (∀ c ∈ st.1, c.length ≤ n) ∧ st.2.length ≤ n)
      (ctStep n ov) (fun st p hst => ctStep_preserve n ov hn st p hst)
      (splitParas (trim (collapseNewlines (replaceCrlf text)))) ([], []) (by simp)
    rcases hst : (splitParas (trim (collapseNewlines (replaceCrlf text)))).foldl
        (ctStep n ov) ([], []) with ⟨chunks, cur⟩
    rw [hst] at hfold hc
    simp only at hc
    split at hc
    · exact hfold.1 c hc
    · simp only [List.mem_append, List.mem_singleton] at hc
      rcases hc with hc | hc
      · exact hfold.1 c hc
      · subst hc
        exact hfold.2

/-- Element i of the overlap loop's tail output: the previous pre-overlap
chunk's last overlap characters, the separator, then the chunk itself. -/
theorem applyOverlapGo_getElem? (ov : Nat) :
    ∀ (rest : List Str) (prev : Str) (i : Nat), i < rest.length →
      (applyOverlapGo ov prev rest)[i]? =
        some (takeLast ov ((prev :: rest).getD i []) ++ (" ... ").toList ++ rest.getD i []) := by
  intro rest
  induction rest with
  | nil => intro prev i h; simp at h
  | cons c rest' ih =>
    intro prev i h
    rcases i with _ | j
    · simp [applyOverlapGo, List.getD]
    · simp only [applyOverlapGo, List.getElem?_cons_succ, List.getD_cons_succ]
      exact ih c j (by simpa using h)

/-- Every element of the overlap loop's tail output is an overlap prefix,
the separator, then some pre-overlap chunk of the tail. -/
theorem applyOverlapGo_mem (ov : Nat) :
    ∀ (rest : List Str) (prev : Str) (x : Str), x ∈ applyOverlapGo ov prev rest →
      ∃ p c, x = takeLast ov p ++ (" ... ").toList ++ c ∧ c ∈ rest := by
  intro rest
  induction rest with
  | nil => intro prev x hx; simp [applyOverlapGo] at hx
  | cons c rest' ih =>
    intro prev x hx
    simp only [applyOverlapGo, List.mem_cons] at hx
    rcases hx with hx | hx
    · exact ⟨prev, c, hx, by simp⟩
    · obtain ⟨p, c', hc', hmem⟩ := ih c x hx
      exact ⟨p, c', hc', by simp [hmem]⟩

/-- C6: for every input text, chunkSize and overlap (chunkSize positive, as
the source's defaults are), every segment the chunker produces before
overlap injection has length at most chunkSize; the segments produced by
hard-splitting one over-long sentence have length exactly chunkSize apart
from possibly the last fragment (so they obey the same bound). -/
theorem C6_pre_overlap_size_bound (text t : Str) (n ov : Nat) (hn : 0 < n) :
    (∀ c ∈ preOverlapChunks text n ov, c.length ≤ n) ∧
      (∀ c ∈ (hardSplit t n).dropLast, c.length = n) :=
  ⟨preOverlapChunks_length_le text n ov hn, hardSplit_dropLast_length t n hn⟩

/-- Witness for C6 at text "a b", hard-split text "abcde", chunkSize 3,
overlap 1. -/
theorem C6_pre_overlap_size_bound_witness :
    0 < 3 ∧
      ((∀ c ∈ preOverlapChunks (("a b").toList) 3 1, c.length ≤ 3) ∧
        (∀ c ∈ (hardSplit (("abcde").toList) 3).dropLast, c.length = 3)) :=
  ⟨by decide, C6_pre_overlap_size_bound (("a b").toList) (("abcde").toList) 3 1 (by decide)⟩

/-- C7: with positive overlap and at least two segments, every final
segment after the first equals the last overlap characters of the previous
pre-overlap segment, the literal " ... " separator, then its own
pre-overlap content; consequently every post-overlap segment exceeds
chunkSize by at most overlap plus the separator length (5). -/
theorem C7_overlap_injection (text : Str) (n ov : Nat) (hn : 0 < n) (hov : 0 < ov) :
    (∀ i, 0 < i → i < (preOverlapChunks text n ov).length →
      (chunkText text n ov)[i]? =
        some (takeLast ov ((preOverlapChunks text n ov).getD (i - 1) []) ++
          (" ... ").toList ++ (preOverlapChunks text n ov).getD i [])) ∧
      (∀ c ∈ chunkText text n ov, c.length ≤ n + ov + 5) := by
  constructor
  · intro i hi hilen
    rcases hpre : preOverlapChunks text n ov with _ | ⟨c0, rest⟩
    · rw [hpre] at hilen
      simp at hilen
    · rw [hpre] at hilen
      rw [chunkText, hpre, applyOverlap]
      split
      · rename_i hguard
        simp only [Bool.or_eq_true, decide_eq_true_eq] at hguard
        rcases hguard with hguard | hguard
        · omega
        · simp only [List.length_cons] at hguard hilen
          omega
      · obtain ⟨j, rfl⟩ : ∃ j, i = j + 1 := ⟨i - 1, by omega⟩
        simp only [List.getElem?_cons_succ, Nat.add_sub_cancel, List.getD_cons_succ]
        exact applyOverlapGo_getElem? ov rest c0 j (by simpa using hilen)
  · intro c hc
    rw [chunkText, applyOverlap.eq_def] at hc
    split at hc
    · have := preOverlapChunks_length_le text n ov hn c hc
      omega
    · rcases hpre : preOverlapChunks text n ov with _ | ⟨c0, rest⟩
      · rw [hpre] at hc
        simp at hc
      · rw [hpre] at hc
        simp only [List.mem_cons] at hc
        rcases hc with hc | hc
        · subst hc
          have := preOverlapChunks_length_le text n ov hn c (by rw [hpre]; simp)
          omega
        · obtain ⟨p, c', hceq, hmem⟩ := applyOverlapGo_mem ov rest c0 c hc
          subst hceq
          have h1 := takeLast_length_le ov p
          have h2 := preOverlapChunks_length_le text n ov hn c' (by rw [hpre]; simp [hmem])
          have h3 : ((" ... ").toList).length = 5 := by decide
          simp only [List.length_append]
          omega

/-- Witness for C7 at text "a b", chunkSize 3, overlap 1. -/
theorem C7_overlap_injection_witness :
    0 < 3 ∧ 0 < 1 ∧
      ((∀ i, 0 < i → i < (preOverlapChunks (("a b").toList) 3 1).length →
        (chunkText (("a b").toList) 3 1)[i]? =
          some (takeLast 1 ((preOverlapChunks (("a b").toList) 3 1).getD (i - 1) []) ++
            (" ... ").toList ++ (preOverlapChunks (("a b").toList) 3 1).getD i [])) ∧
        (∀ c ∈ chunkText (("a b").toList) 3 1, c.length ≤ 3 + 1 + 5)) :=
  ⟨by decide, by decide, C7_overlap_injection (("a b").toList) 3 1 (by decide) (by decide)⟩

/-- C10: for every string and positive chunk size, hardSplit is lossless
(concatenation reconstructs the input), every fragment except possibly the
last has length exactly chunkSize, and for non-empty input the last
fragment's length is between 1 and chunkSize. -/
theorem C10_hardSplit_lossless (s : Str) (n : Nat) (hn : 0 < n) :
    (hardSplit s n).flatten = s ∧
      (∀ c ∈ (hardSplit s n).dropLast, c.length = n) ∧
      (s ≠ [] → 1 ≤ (((hardSplit s n).getLast?).getD []).length ∧
        (((hardSplit s n).getLast?).getD []).length ≤ n) :=
  ⟨hardSplit_flatten s n hn, hardSplit_dropLast_length s n hn, hardSplit_getLast_bounds s n hn⟩

/-- Witness for C10 at the string "abcd" and chunk size 3. -/
theorem C10_hardSplit_lossless_witness :
    0 < 3 ∧
      ((hardSplit (("abcd").toList) 3).flatten = ("abcd").toList ∧
        (∀ c ∈ (hardSplit (("abcd").toList) 3).dropLast, c.length = 3) ∧
        ((("abcd").toList ≠ ([] : Str)) →
          1 ≤ (((hardSplit (("abcd").toList) 3).getLast?).getD []).length ∧
            (((hardSplit (("abcd").toList) 3).getLast?).getD []).length ≤ 3)) :=
  ⟨by decide, C10_hardSplit_lossless (("abcd").toList) 3 (by decide)⟩

/-- Membership in a stable descending insertion. -/
theorem insertDesc_mem (x y : ChunkWithScore) :
    ∀ l : List ChunkWithScore, y ∈ insertDesc x l ↔ y = x ∨ y ∈ l := by
  intro l
  induction l with
  | nil => simp [insertDesc]
  | cons a t ih =>
    simp only [insertDesc]
    split
    · simp [List.mem_cons]
    · simp only [List.mem_cons, ih]
      tauto

/-- Membership after folding stable descending insertions. -/
theorem foldl_insertDesc_mem (x : ChunkWithScore) :
    ∀ (l acc : List ChunkWithScore),
      x ∈ l.foldl (fun acc y => insertDesc y acc) acc ↔ x ∈ acc ∨ x ∈ l := by
  intro l
  induction l with
  | nil => simp
  | cons a t ih =>
    intro acc
    simp only [List.foldl_cons, ih, insertDesc_mem, List.mem_cons]
    tauto

/-- The stable sort of retrieval keeps exactly the input elements. -/
theorem sortByScoreDesc_mem (x : ChunkWithScore) (l : List ChunkWithScore) :
    x ∈ sortByScoreDesc l ↔ x ∈ l := by
  simp [sortByScoreDesc, foldl_insertDesc_mem]

/-- C4: the aggregate confidence of every retrieval result is the threshold
function of the arithmetic mean of the returned chunks' scores (strictly
above 0.8 high, strictly above 0.5 medium, otherwise low); an empty result
set gets low, and a mean of exactly one half gets low. -/
theorem C4_confidence_aggregation (sqrtQ : ℚ → ℚ) (qe : List ℚ)
    (dbRes : Except Unit (List StoredChunk)) (cc : Option String) (topK : Nat) :
    (retrieveRelevantChunks sqrtQ qe dbRes cc topK).confidence =
        confidenceOf (meanScore (retrieveRelevantChunks sqrtQ qe dbRes cc topK).chunks) ∧
      ((retrieveRelevantChunks sqrtQ qe dbRes cc topK).chunks = [] →
        (retrieveRelevantChunks sqrtQ qe dbRes cc topK).confidence = "low") ∧
      (meanScore (retrieveRelevantChunks sqrtQ qe dbRes cc topK).chunks = 1 / 2 →
        (retrieveRelevantChunks sqrtQ qe dbRes cc topK).confidence = "low") := by
  have hlow : confidenceOf (meanScore ([] : List ChunkWithScore)) = "low" := by
    norm_num [meanScore, confidenceOf]
  have hhalf : confidenceOf (1 / 2 : ℚ) = "low" := by
    norm_num [confidenceOf]
  have hbody : ∀ r, retrieveBody sqrtQ qe dbRes cc topK = .ok r →
      r.confidence = confidenceOf (meanScore r.chunks) := by
    intro r hr
    rcases dbRes with e | db
    · simp [retrieveBody] at hr
    · rcases cc with _ | c
      · simp only [retrieveBody] at hr
        split at hr
        · simp only [Except.ok.injEq] at hr
          subst hr
          exact hlow.symm
        · simp only [Except.ok.injEq] at hr
          subst hr
          rfl
      · simp only [retrieveBody] at hr
        split at hr
        · simp only [Except.ok.injEq] at hr
          subst hr
          exact hlow.symm
        · simp only [Except.ok.injEq] at hr
          subst hr
          rfl
  have main : (retrieveRelevantChunks sqrtQ qe dbRes cc topK).confidence =
      confidenceOf (meanScore (retrieveRelevantChunks sqrtQ qe dbRes cc topK).chunks) := by
    rcases hb : retrieveBody sqrtQ qe dbRes cc topK with e | r
    · unfold retrieveRelevantChunks
      rw [hb]
      exact hlow.symm
    · unfold retrieveRelevantChunks
      rw [hb]
      exact hbody r hb
  refine ⟨main, ?_, ?_⟩
  · intro h
    rw [main, h, hlow]
  · intro h
    rw [main, h, hhalf]

/-- C5: with a scope filter, every returned chunk is the scored image of a
stored chunk whose document's course code equals the filter (no chunk of
another course can appear, whatever it scores); and when the filter leaves
no candidate with an embedding, the result is empty with low confidence,
with no fallback to the unfiltered set. -/
theorem C5_scope_filter_exclusivity (sqrtQ : ℚ → ℚ) (qe : List ℚ)
    (db : List StoredChunk) (cc : String) (topK : Nat) :
    (∀ r ∈ (retrieveRelevantChunks sqrtQ qe (.ok db) (some cc) topK).chunks,
      ∃ c, c ∈ db ∧ r = scoreChunk sqrtQ qe c ∧ c.docCourseCode = some cc) ∧
      (((db.filter (fun c => c.embedding.isSome)).filter
          (fun c => c.docCourseCode == some cc)) = [] →
        retrieveRelevantChunks sqrtQ qe (.ok db) (some cc) topK =
          { chunks := [], confidence := "low" }) := by
  constructor
  · intro r hr
    simp only [retrieveRelevantChunks, retrieveBody] at hr
    by_cases hemp : ((db.filter (fun c => c.embedding.isSome)).filter
        (fun c => c.docCourseCode == some cc)).isEmpty = true
    · rw [if_pos hemp] at hr
      have hr2 : r ∈ ([] : List ChunkWithScore) := hr
      simp at hr2
    · rw [if_neg hemp] at hr
      have hr2 : r ∈ (sortByScoreDesc (((db.filter (fun c => c.embedding.isSome)).filter
          (fun c => c.docCourseCode == some cc)).map (scoreChunk sqrtQ qe))).take topK := hr
      have hr' := List.take_subset _ _ hr2
      rw [sortByScoreDesc_mem] at hr'
      simp only [List.mem_map] at hr'
      obtain ⟨c, hc, hceq⟩ := hr'
      refine ⟨c, ?_, hceq.symm, ?_⟩
      · exact List.mem_of_mem_filter (List.mem_of_mem_filter hc)
      · have := List.of_mem_filter hc
        simpa using this
  · intro hnil
    simp [retrieveRelevantChunks, retrieveBody, hnil]

/-- C3 counterexample: at a failing database read, the try block of the
retrieval indeed fails, yet the operation returns the ordinary degraded
result (empty chunks, low confidence) to its caller instead of an error. -/
theorem C3_error_swallowed_cex :
    retrieveBody (fun x => x) [] (.error ()) none 5 = .error () ∧
      retrieveRelevantChunks (fun x => x) [] (.error ()) none 5 =
        { chunks := [], confidence := "low" } :=
  ⟨rfl, rfl⟩

/-- C3 amended: whenever any step inside the retrieval's try block fails,
the catch-all converts the failure into an empty result with low
confidence; no error reaches the caller. -/
theorem C3_catch_returns_degraded (sqrtQ : ℚ → ℚ) (qe : List ℚ)
    (dbRes : Except Unit (List StoredChunk)) (cc : Option String) (topK : Nat)
    (e : Unit) (h : retrieveBody sqrtQ qe dbRes cc topK = .error e) :
    retrieveRelevantChunks sqrtQ qe dbRes cc topK = { chunks := [], confidence := "low" } := by
  unfold retrieveRelevantChunks
  rw [h]

/-- Witness for the amended C3 at a concrete failing database read. -/
theorem C3_catch_returns_degraded_witness :
    retrieveRelevantChunks (fun x => x) [] (.error ()) none 3 =
      { chunks := [], confidence := "low" } :=
  C3_catch_returns_degraded (fun x => x) [] (.error ()) none 3 () rfl

/-- The keyword loop's counter equals the number of matching tokens,
counted with multiplicity. -/
theorem foldl_count_eq_filter_length (p : Str → Bool) :
    ∀ (l : List Str) (a : ℚ),
      l.foldl (fun s k => if p k then s + 1 else s) a = a + ((l.filter p).length : ℚ) := by
  intro l
  induction l with
  | nil => intro a; simp
  | cons k t ih =>
    intro a
    by_cases hk : p k
    · simp only [List.foldl_cons, hk, if_true, ih, List.filter_cons_of_pos hk,
        List.length_cons]
      push_cast
      ring
    · simp [List.foldl_cons, hk, ih, List.filter_cons_of_neg hk]

/-- C2 (amended): the keyword search scores each chunk by the number of
query tokens, counted with multiplicity, whose text occurs as a substring
of the lowercased content, divided by the number of query tokens — and
otherwise behaves exactly as the claim says (tokens of length above 2,
zero scores excluded, stable descending sort, truncation to the limit). -/
theorem C2_keyword_score_multiplicity (query : Str) (cc : Option String) (limit : Nat)
    (db : List StoredChunk) :
    searchChunksByKeyword query cc limit db =
      searchChunksByKeywordAmended query cc limit db := by
  simp only [searchChunksByKeyword, searchChunksByKeywordAmended,
    foldl_count_eq_filter_length, zero_add]

/-- C2 counterexample: on the duplicate-token query "cat cat dog" over a
store holding a "dog" chunk (id b) before a "cat" chunk (id a) with limit
1, the source scores a at 2/3 (each duplicate token counts) and returns a,
while the claim's distinct-token score ties both at 1/3 and the stable
sort returns b: the claim's description does not match the code. -/
theorem C2_keyword_distinct_cex :
    ((searchChunksByKeyword (("cat cat dog").toList) none 1
        [ { id := "b", documentId := "db", content := ("dog").toList,
            docCourseCode := none, docConfidence := "medium", embedding := none },
          { id := "a", documentId := "da", content := ("cat").toList,
            docCourseCode := none, docConfidence := "medium", embedding := none } ]).map
      (fun c => c.id) = [ "a" ]) ∧
      ((searchChunksByKeywordSpec (("cat cat dog").toList) none 1
        [ { id := "b", documentId := "db", content := ("dog").toList,
            docCourseCode := none, docConfidence := "medium", embedding := none },
          { id := "a", documentId := "da", content := ("cat").toList,
            docCourseCode := none, docConfidence := "medium", embedding := none } ]).map
      (fun c => c.id) = [ "b" ]) := by
  have hk : keywordsOf (("cat cat dog").toList) =
      [ ("cat").toList, ("cat").toList, ("dog").toList ] := by decide
  have hd : dedupFirst [ ("cat").toList, ("cat").toList, ("dog").toList ] =
      [ ("cat").toList, ("dog").toList ] := by decide
  have hA : List.filter (fun k => containsSub (toLower (("cat").toList)) k)
      [ ("cat").toList, ("cat").toList, ("dog").toList ] =
      [ ("cat").toList, ("cat").toList ] := by decide
  have hB : List.filter (fun k => containsSub (toLower (("dog").toList)) k)
      [ ("cat").toList, ("cat").toList, ("dog").toList ] =
      [ ("dog").toList ] := by decide
  have hA2 : List.filter (fun k => containsSub (toLower (("cat").toList)) k)
      [ ("cat").toList, ("dog").toList ] = [ ("cat").toList ] := by decide
  have hB2 : List.filter (fun k => containsSub (toLower (("dog").toList)) k)
      [ ("cat").toList, ("dog").toList ] = [ ("dog").toList ] := by decide
  constructor
  · simp only [searchChunksByKeyword, hk, List.map_cons, List.map_nil,
      foldl_count_eq_filter_length, zero_add, hA, hB]
    norm_num [sortByScoreDesc, insertDesc, List.filter, List.take]
  · simp only [searchChunksByKeywordSpec, hk, hd, List.map_cons, List.map_nil, hA2, hB2]
    norm_num [sortByScoreDesc, insertDesc, List.filter, List.take]

/-- A foldl that only adds images equals the starting value plus the sum of
the images. -/
theorem foldl_add_fn {α M : Type} [AddCommMonoid M] (g : α → M) :
    ∀ (l : List α) (a : M), l.foldl (fun s x => s + g x) a = a + (l.map g).sum := by
  intro l
  induction l with
  | nil => intro a; simp
  | cons c t ih =>
    intro a
    simp only [List.foldl_cons, ih, List.map_cons, List.sum_cons]
    rw [add_assoc]

/-- sumSq as a sum of squares. -/
theorem sumSq_eq_sum_map (v : List ℚ) : sumSq v = (v.map (fun x => x * x)).sum := by
  rw [sumSq, foldl_add_fn, zero_add]

/-- normSq as a sum of squares. -/
theorem normSq_eq_sum_map (v : List ℝ) : normSq v = (v.map (fun x => x * x)).sum := by
  rw [normSq, foldl_add_fn, zero_add]

/-- addAt does not change the vector's length. -/
theorem length_addAt (v : List ℚ) (i : Nat) (x : ℚ) : (addAt v i x).length = v.length := by
  simp [addAt]

/-- addAt at an in-range index adds its amount to the vector's sum. -/
theorem sum_addAt : ∀ (v : List ℚ) (i : Nat) (x : ℚ), i < v.length →
    (addAt v i x).sum = v.sum + x := by
  intro v
  induction v with
  | nil => intro i x h; simp at h
  | cons a t ih =>
    intro i x h
    rcases i with _ | j
    · simp [addAt, List.getD]
      ring
    · have := ih j x (by simpa using h)
      simp only [addAt, List.getD_cons_succ, List.set_cons_succ, List.sum_cons] at this ⊢
      rw [this]
      ring

/-- Folding in-range additions of a fixed amount: the length is unchanged
and the sum grows by the amount once per element. -/
theorem foldl_addAt_facts {α : Type} (q : ℚ) (f : α → Nat) (hf : ∀ a, f a < vectorDim) :
    ∀ (l : List α) (v : List ℚ), v.length = vectorDim →
      (l.foldl (fun v' a => addAt v' (f a) q) v).length = vectorDim ∧
        (l.foldl (fun v' a => addAt v' (f a) q) v).sum = v.sum + l.length * q := by
  intro l
  induction l with
  | nil => intro v hv; simpa using hv
  | cons a t ih =>
    intro v hv
    have h1 : (addAt v (f a) q).length = vectorDim := by rw [length_addAt, hv]
    have h2 := ih (addAt v (f a) q) h1
    refine ⟨h2.1, ?_⟩
    simp only [List.foldl_cons, h2.2, sum_addAt v (f a) q (by rw [hv]; exact hf a),
      List.length_cons]
    push_cast
    ring

/-- The double fold of rawEmbedding with per-addition amount q ≥ 0: the
length stays the dimension, the sum never decreases, and every processed
word contributes at least its length times q to the final sum. -/
theorem rawFold_facts (q : ℚ) (hq : 0 ≤ q) :
    ∀ (L : List (Nat × Str)) (v : List ℚ), v.length = vectorDim →
      ((L.foldl (fun v iw => iw.2.enum.foldl
          (fun v' jc => addAt v' ((jc.2.toNat * (iw.1 + 1) * (jc.1 + 1)) % vectorDim) q) v)
            v).length = vectorDim ∧
        v.sum ≤ (L.foldl (fun v iw => iw.2.enum.foldl
          (fun v' jc => addAt v' ((jc.2.toNat * (iw.1 + 1) * (jc.1 + 1)) % vectorDim) q) v)
            v).sum ∧
        (∀ iw ∈ L, v.sum + iw.2.length * q ≤ (L.foldl (fun v iw => iw.2.enum.foldl
          (fun v' jc => addAt v' ((jc.2.toNat * (iw.1 + 1) * (jc.1 + 1)) % vectorDim) q) v)
            v).sum)) := by
  intro L
  induction L with
  | nil => intro v hv; exact ⟨hv, le_refl _, by simp⟩
  | cons a t ih =>
    intro v hv
    have hstep := foldl_addAt_facts q
      (fun jc : Nat × Char => (jc.2.toNat * (a.1 + 1) * (jc.1 + 1)) % vectorDim)
      (fun jc => Nat.mod_lt _ (by norm_num [vectorDim])) a.2.enum v hv
    have hlen : a.2.enum.length = a.2.length := List.enumFrom_length
    have hrest := ih _ hstep.1
    have h0 : (0 : ℚ) ≤ (a.2.enum.length : ℚ) * q := mul_nonneg (by positivity) hq
    refine ⟨hrest.1, ?_, ?_⟩
    · calc v.sum ≤ v.sum + (a.2.enum.length : ℚ) * q := by linarith
        _ ≤ _ := le_trans (le_of_eq hstep.2.symm) hrest.2.1
    · intro iw hiw
      rcases List.mem_cons.mp hiw with hiw | hiw
      · subst hiw
        calc v.sum + (iw.2.length : ℚ) * q = v.sum + (iw.2.enum.length : ℚ) * q := by rw [hlen]
          _ ≤ _ := le_trans (le_of_eq hstep.2.symm) hrest.2.1
      · calc v.sum + (iw.2.length : ℚ) * q
            ≤ (v.sum + (a.2.enum.length : ℚ) * q) + (iw.2.length : ℚ) * q := by linarith
          _ ≤ _ := hstep.2 ▸ hrest.2.2 iw hiw

/-- A string whose trim is empty is all whitespace. -/
theorem all_ws_of_trim_eq_nil (s : Str) (h : trim s = []) : ∀ c ∈ s, isWs c = true := by
  intro c hc
  have h1 : (s.dropWhile isWs).reverse.dropWhile isWs = [] := by
    have := congrArg List.reverse h
    simpa [trim] using this
  have h2 : ∀ x ∈ (s.dropWhile isWs).reverse, isWs x = true :=
    List.dropWhile_eq_nil_iff.mp h1
  have h3 : ∀ x ∈ s.dropWhile isWs, isWs x = true := by
    intro x hx
    exact h2 x (List.mem_reverse.mpr hx)
  rcases List.mem_append.mp ((List.takeWhile_append_dropWhile isWs s) ▸ hc) with hc' | hc'
  · exact List.mem_takeWhile_imp hc'
  · exact h3 c hc'

/-- A string whose trim is non-empty holds a non-whitespace character. -/
theorem exists_nonWs_of_trim_ne_nil (s : Str) (h : trim s ≠ []) : ∃ c ∈ s, isWs c = false := by
  by_contra hall
  push_neg at hall
  apply h
  have h1 : s.dropWhile isWs = [] := by
    apply List.dropWhile_eq_nil_iff.mpr
    intro x hx
    have := hall x hx
    revert this
    cases isWs x <;> simp
  simp [trim, h1]

/-- A character with code point above 32 is not whitespace. -/
theorem isWs_eq_false_of_toNat_gt (x : Char) (h : 32 < x.toNat) : isWs x = false := by
  have hsp : (' ' : Char).toNat = 32 := by decide
  have htb : ('\t' : Char).toNat = 9 := by decide
  have hnl : ('\n' : Char).toNat = 10 := by decide
  have hcr : ('\r' : Char).toNat = 13 := by decide
  rw [isWs]
  simp only [Bool.or_eq_false_iff, decide_eq_false_iff_not]
  refine ⟨⟨⟨fun he => ?_, fun he => ?_⟩, fun he => ?_⟩, fun he => ?_⟩
  · rw [he, hsp] at h
    omega
  · rw [he, htb] at h
    omega
  · rw [he, hnl] at h
    omega
  · rw [he, hcr] at h
    omega

/-- Lowercasing never turns a character into or out of whitespace. -/
theorem isWs_toLower (c : Char) : isWs (Char.toLower c) = isWs c := by
  rw [Char.toLower]
  split
  · rename_i hrange
    have hv : (c.toNat + 32).isValidChar := Or.inl (by omega)
    have ht : (Char.ofNat (c.toNat + 32)).toNat = c.toNat + 32 := by
      rw [Char.ofNat, dif_pos hv]
      rfl
    rw [isWs_eq_false_of_toNat_gt _ (by rw [ht]; omega),
      isWs_eq_false_of_toNat_gt c (by omega)]
  · rfl

/-- splitWs never returns an empty list of pieces. -/
theorem splitWs_ne_nil : ∀ s : Str, splitWs s ≠ [] := by
  intro s
  induction s with
  | nil => simp [splitWs]
  | cons c s' ih =>
    rcases s' with _ | ⟨d, rest⟩
    · rw [splitWs]
      split <;> simp
    · rw [splitWs]
      split
      · split
        · exact ih
        · simp
      · rcases hr : splitWs (d :: rest) with _ | ⟨p, ps⟩
        · simp
        · simp

/-- When every character is whitespace, every piece of splitWs is empty. -/
theorem splitWs_all_nil : ∀ s : Str, (∀ c ∈ s, isWs c = true) → ∀ w ∈ splitWs s, w = [] := by
  intro s
  induction s with
  | nil =>
    intro _ w hw
    simpa [splitWs] using hw
  | cons c s' ih =>
    intro hall w hw
    rcases s' with _ | ⟨d, rest⟩
    · rw [splitWs] at hw
      rw [if_pos (hall c (by simp))] at hw
      simpa using hw
    · rw [splitWs] at hw
      rw [if_pos (hall c (by simp))] at hw
      have ih2 := ih (fun x hx => hall x (List.mem_cons_of_mem c hx))
      split at hw
      · exact ih2 w hw
      · rename_i hd
        have := hall d (by simp)
        rw [this] at hd
        simp at hd

/-- A non-whitespace character forces a non-empty piece in splitWs. -/
theorem exists_word_ne_nil : ∀ s : Str, (∃ c ∈ s, isWs c = false) → ∃ w ∈ splitWs s, w ≠ [] := by
  intro s
  induction s with
  | nil =>
    rintro ⟨c, hc, _⟩
    simp at hc
  | cons c s' ih =>
    rintro ⟨x, hx, hxws⟩
    rcases s' with _ | ⟨d, rest⟩
    · have hxc : x = c := by simpa using hx
      subst hxc
      rw [splitWs, if_neg (by rw [hxws]; simp)]
      exact ⟨[x], by simp, by simp⟩
    · by_cases hc : isWs c = true
      · have hxmem : x ∈ d :: rest := by
          rcases List.mem_cons.mp hx with hx' | hx'
          · subst hx'
            rw [hc] at hxws
            simp at hxws
          · exact hx'
        obtain ⟨w, hw, hwne⟩ := ih ⟨x, hxmem, hxws⟩
        rw [splitWs, if_pos hc]
        split
        · exact ⟨w, hw, hwne⟩
        · exact ⟨w, List.mem_cons_of_mem _ hw, hwne⟩
      · rw [splitWs, if_neg hc]
        rcases hr : splitWs (d :: rest) with _ | ⟨p, ps⟩
        · exact absurd hr (splitWs_ne_nil _)
        · exact ⟨c :: p, by simp, by simp⟩

/-- Folding the set-spread step keeps everything already present or seen. -/
theorem mem_foldl_dedup (x : Str) :
    ∀ (l acc : List Str), (x ∈ acc ∨ x ∈ l) →
      x ∈ l.foldl (fun acc w => if w ∈ acc then acc else acc ++ [w]) acc := by
  intro l
  induction l with
  | nil =>
    intro acc h
    rcases h with h | h
    · exact h
    · simp at h
  | cons w t ih =>
    intro acc h
    simp only [List.foldl_cons]
    apply ih
    rcases h with h | h
    · left
      split
      · exact h
      · simp [h]
    · rcases List.mem_cons.mp h with h | h
      · subst h
        left
        split
        · assumption
        · simp
      · right
        exact h

/-- Every element of the input list survives dedupFirst. -/
theorem mem_dedupFirst_of_mem (x : Str) (l : List Str) (h : x ∈ l) : x ∈ dedupFirst l :=
  mem_foldl_dedup x l [] (Or.inr h)

/-- The set-spread fold introduces nothing new. -/
theorem of_mem_foldl_dedup (x : Str) :
    ∀ (l acc : List Str),
      x ∈ l.foldl (fun acc w => if w ∈ acc then acc else acc ++ [w]) acc →
        x ∈ acc ∨ x ∈ l := by
  intro l
  induction l with
  | nil =>
    intro acc h
    exact Or.inl h
  | cons w t ih =>
    intro acc h
    simp only [List.foldl_cons] at h
    rcases ih _ h with h' | h'
    · split at h'
      · exact Or.inl h'
      · rcases List.mem_append.mp h' with h'' | h''
        · exact Or.inl h''
        · simp only [List.mem_singleton] at h''
          subst h''
          exact Or.inr (by simp)
    · exact Or.inr (List.mem_cons_of_mem _ h')

/-- dedupFirst produces only elements of the input list. -/
theorem mem_of_mem_dedupFirst (x : Str) (l : List Str) (h : x ∈ dedupFirst l) : x ∈ l := by
  rcases of_mem_foldl_dedup x l [] h with h' | h'
  · simp at h'
  · exact h'

/-- A list of non-positive rationals has non-positive sum. -/
theorem sum_nonpos_list : ∀ v : List ℚ, (∀ x ∈ v, x ≤ 0) → v.sum ≤ 0 := by
  intro v
  induction v with
  | nil => intro _; simp
  | cons a t ih =>
    intro h
    have ha := h a (by simp)
    have ht := ih (fun x hx => h x (List.mem_cons_of_mem a hx))
    simp only [List.sum_cons]
    linarith

/-- A list with positive sum holds a positive element. -/
theorem exists_pos_of_sum_pos (v : List ℚ) (h : 0 < v.sum) : ∃ x ∈ v, 0 < x := by
  by_contra hall
  push_neg at hall
  have := sum_nonpos_list v hall
  linarith

/-- A positive sum of entries forces a positive sum of squares. -/
theorem sumSq_pos_of_sum_pos (v : List ℚ) (h : 0 < v.sum) : 0 < sumSq v := by
  obtain ⟨x, hx, hxp⟩ := exists_pos_of_sum_pos v h
  rw [sumSq_eq_sum_map]
  have h1 : x * x ∈ v.map (fun y => y * y) := List.mem_map_of_mem _ hx
  have h2 : ∀ y ∈ v.map (fun y => y * y), (0 : ℚ) ≤ y := by
    intro y hy
    obtain ⟨z, _, rfl⟩ := List.mem_map.mp hy
    exact mul_self_nonneg z
  have h3 := List.single_le_sum h2 _ h1
  nlinarith

/-- The surrogate vector always has the full dimension. -/
theorem rawEmbedding_length (text : Str) : (rawEmbedding text).length = vectorDim := by
  rw [rawEmbedding]
  exact (rawFold_facts (1 / ((dedupFirst (splitWs (toLower text))).length : ℚ))
    (by positivity) (dedupFirst (splitWs (toLower text))).enum
    (List.replicate vectorDim 0) (by simp)).1

/-- Text with a non-whitespace character yields a surrogate vector with
positive entry sum. -/
theorem sum_rawEmbedding_pos (text : Str) (h : trim text ≠ []) :
    0 < (rawEmbedding text).sum := by
  obtain ⟨c, hc, hcws⟩ := exists_nonWs_of_trim_ne_nil text h
  have hc2 : Char.toLower c ∈ toLower text := List.mem_map_of_mem _ hc
  have hcws2 : isWs (Char.toLower c) = false := by rw [isWs_toLower]; exact hcws
  obtain ⟨w, hw, hwne⟩ := exists_word_ne_nil (toLower text) ⟨_, hc2, hcws2⟩
  have hw2 : w ∈ dedupFirst (splitWs (toLower text)) := mem_dedupFirst_of_mem _ _ hw
  have hu1 : 0 < (dedupFirst (splitWs (toLower text))).length :=
    List.length_pos.mpr (by intro hnil; rw [hnil] at hw2; simp at hw2)
  have hq : (0 : ℚ) < 1 / ((dedupFirst (splitWs (toLower text))).length : ℚ) := by
    have : (0 : ℚ) < ((dedupFirst (splitWs (toLower text))).length : ℚ) := by
      exact_mod_cast hu1
    positivity
  obtain ⟨i, hget⟩ := List.mem_iff_get?.mp hw2
  have hiw : (i, w) ∈ (dedupFirst (splitWs (toLower text))).enum :=
    List.mk_mem_enum_iff_get?.mpr hget
  have hfacts := rawFold_facts (1 / ((dedupFirst (splitWs (toLower text))).length : ℚ))
    hq.le (dedupFirst (splitWs (toLower text))).enum (List.replicate vectorDim 0) (by simp)
  have h3 := hfacts.2.2 (i, w) hiw
  rw [rawEmbedding]
  have hrep : (List.replicate vectorDim (0 : ℚ)).sum = 0 := by simp
  rw [hrep] at h3
  have hwlen : (1 : ℚ) ≤ (w.length : ℚ) := by
    exact_mod_cast Nat.one_le_iff_ne_zero.mpr (by simpa using hwne)
  have hmul : (1 : ℚ) * (1 / ((dedupFirst (splitWs (toLower text))).length : ℚ)) ≤
      (w.length : ℚ) * (1 / ((dedupFirst (splitWs (toLower text))).length : ℚ)) :=
    mul_le_mul_of_nonneg_right hwlen hq.le
  simp only at h3
  linarith

/-- The double fold leaves the vector unchanged when every word is empty. -/
theorem foldl_nil_words (q : ℚ) :
    ∀ (L : List (Nat × Str)) (v : List ℚ), (∀ iw ∈ L, iw.2 = []) →
      L.foldl (fun v iw => iw.2.enum.foldl
        (fun v' jc => addAt v' ((jc.2.toNat * (iw.1 + 1) * (jc.1 + 1)) % vectorDim) q) v) v = v := by
  intro L
  induction L with
  | nil => intro v _; rfl
  | cons a t ih =>
    intro v hall
    have ha : a.2 = [] := hall a (by simp)
    simp only [List.foldl_cons, ha]
    exact ih v (fun iw hiw => hall iw (List.mem_cons_of_mem a hiw))

/-- Whitespace-only text yields the all-zero surrogate vector. -/
theorem rawEmbedding_eq_replicate_of_ws (text : Str) (h : trim text = []) :
    rawEmbedding text = List.replicate vectorDim 0 := by
  have hall := all_ws_of_trim_eq_nil text h
  have hws : ∀ w ∈ splitWs (toLower text), w = [] := by
    apply splitWs_all_nil
    intro c hc
    obtain ⟨d, hd, rfl⟩ := List.mem_map.mp hc
    rw [isWs_toLower]
    exact hall d hd
  have hdws : ∀ w ∈ dedupFirst (splitWs (toLower text)), w = [] :=
    fun w hw => hws w (mem_of_mem_dedupFirst _ _ hw)
  have henum : ∀ iw ∈ (dedupFirst (splitWs (toLower text))).enum, iw.2 = ([] : Str) := by
    intro iw hiw
    apply hdws
    have h1 : iw.2 ∈ (dedupFirst (splitWs (toLower text))).enum.map Prod.snd :=
      List.mem_map_of_mem _ hiw
    rwa [List.enum_eq_enumFrom, List.enumFrom_map_snd] at h1
  rw [rawEmbedding]
  exact foldl_nil_words _ _ _ henum

/-- sumSq of the zero vector is zero. -/
theorem sumSq_replicate_zero : sumSq (List.replicate vectorDim (0 : ℚ)) = 0 := by
  rw [sumSq_eq_sum_map]
  simp

/-- generateEmbedding of contentless text is the zero vector. -/
theorem generateEmbedding_eq_zero (text : Str) (h : trim text = []) :
    generateEmbedding text = List.replicate vectorDim (0 : ℝ) := by
  rw [generateEmbedding, rawEmbedding_eq_replicate_of_ws text h, sumSq_replicate_zero]
  rw [Rat.cast_zero, Real.sqrt_zero, if_neg (lt_irrefl 0), List.map_replicate, Rat.cast_zero]

/-- generateEmbedding always returns a vector of the full dimension. -/
theorem generateEmbedding_length (text : Str) :
    (generateEmbedding text).length = vectorDim := by
  rw [generateEmbedding]
  split <;> rw [List.length_map, rawEmbedding_length]

/-- generateEmbedding of text with content has squared norm one. -/
theorem normSq_generateEmbedding_eq_one (text : Str) (h : trim text ≠ []) :
    normSq (generateEmbedding text) = 1 := by
  have hS : 0 < sumSq (rawEmbedding text) :=
    sumSq_pos_of_sum_pos _ (sum_rawEmbedding_pos text h)
  have hSR : (0 : ℝ) < ((sumSq (rawEmbedding text) : ℚ) : ℝ) := by exact_mod_cast hS
  have hm : 0 < Real.sqrt ((sumSq (rawEmbedding text) : ℚ) : ℝ) := Real.sqrt_pos.mpr hSR
  rw [generateEmbedding, if_pos hm, normSq_eq_sum_map, List.map_map]
  have hst : ((fun x : ℝ => x * x) ∘ fun x : ℚ =>
      (x : ℝ) / Real.sqrt ((sumSq (rawEmbedding text) : ℚ) : ℝ)) = fun x : ℚ =>
      ((x : ℝ) * (x : ℝ)) * ((Real.sqrt ((sumSq (rawEmbedding text) : ℚ) : ℝ) *
        Real.sqrt ((sumSq (rawEmbedding text) : ℚ) : ℝ))⁻¹) := by
    funext x
    simp only [Function.comp_apply, div_mul_div_comm]
    rw [div_eq_mul_inv]
  rw [hst, List.sum_map_mul_right]
  have hsum : ((rawEmbedding text).map (fun x : ℚ => (x : ℝ) * (x : ℝ))).sum =
      ((sumSq (rawEmbedding text) : ℚ) : ℝ) := by
    rw [sumSq_eq_sum_map, Rat.cast_list_sum, List.map_map]
    refine congrArg List.sum (List.map_congr_left (fun x _ => ?_))
    simp only [Function.comp_apply]
    push_cast
    ring
  rw [hsum, Real.mul_self_sqrt hSR.le]
  exact mul_inv_cancel₀ (ne_of_gt hSR)

/-- C8 (amended): the surrogate embedding of any text containing at least
one non-whitespace character is a 768-dimension vector of Euclidean norm
exactly one (floats modelled as exact rationals and reals); for input with
no content — empty or whitespace-only — it is the 768-dimension zero
vector. -/
theorem C8_embedding_normalization (text : Str) :
    (generateEmbedding text).length = vectorDim ∧
      (trim text ≠ [] → Real.sqrt (normSq (generateEmbedding text)) = 1) ∧
      (trim text = [] → generateEmbedding text = List.replicate vectorDim 0) := by
  refine ⟨generateEmbedding_length text, fun h => ?_, generateEmbedding_eq_zero text⟩
  rw [normSq_generateEmbedding_eq_one text h, Real.sqrt_one]

/-- C8 counterexample: the one-space string is a non-empty input, yet the
surrogate embedding returns the zero vector, whose Euclidean norm is 0 and
not 1 — refuting the claim's "for every non-empty input text". -/
theorem C8_whitespace_cex :
    ((" ").toList ≠ ([] : Str)) ∧
      generateEmbedding ((" ").toList) = List.replicate vectorDim (0 : ℝ) ∧
      Real.sqrt (normSq (generateEmbedding ((" ").toList))) = 0 := by
  have ht : trim ((" ").toList) = [] := by decide
  refine ⟨by decide, generateEmbedding_eq_zero _ ht, ?_⟩
  rw [generateEmbedding_eq_zero _ ht]
  have hz : normSq (List.replicate vectorDim (0 : ℝ)) = 0 := by
    rw [normSq_eq_sum_map]
    simp
  rw [hz, Real.sqrt_zero]

/-- C1: for an image-derived document whose single AI-cleanup model call
fails, the pipeline persists the raw text with confidence upgraded to
medium all the same — cleanOcrText swallows the failure and returns the
raw text as a success, so the pipeline's own catch (which would keep the
prior low confidence) is unreachable; the run still completes without the
top-level catch. -/
theorem C1_cleanup_failure_upgrades_confidence :
    (processDocument (("image/png").toList) (.ok (("blurry scan").toList)) (.error ())
        (fun _ => .error ())).docConfidence = "medium" ∧
      (processDocument (("image/png").toList) (.ok (("blurry scan").toList)) (.error ())
        (fun _ => .error ())).docCleanedText = some (("blurry scan").toList) ∧
      (processDocument (("image/png").toList) (.ok (("blurry scan").toList)) (.error ())
        (fun _ => .error ())).failedCatch = false :=
  ⟨rfl, rfl, rfl⟩

/-- C9: on every pipeline run, the persisted chunk rows carry ordinal
indexes 0, 1, 2, … in order (contiguous from 0); each row's stored vector
is exactly the outcome of its embedding call (null when that call failed);
and which rows are created — their contents and indexes — does not depend
on the embedding outcomes, so per-chunk vectorization failures never abort
or skip the remaining chunks. -/
theorem C9_embedding_step_per_chunk (mimeType : Str) (extractRes : Except Unit Str)
    (cleanupCall : Except Unit (Option Str)) (ec ec' : Nat → Except Unit (List ℚ)) :
    ((processDocument mimeType extractRes cleanupCall ec).chunks.map
        (fun c => c.chunkIndex) =
      List.range (processDocument mimeType extractRes cleanupCall ec).chunks.length) ∧
      ((processDocument mimeType extractRes cleanupCall ec).chunks.map
          (fun c => c.embedding) =
        ((processDocument mimeType extractRes cleanupCall ec).chunks.map
          (fun c => c.chunkIndex)).map (fun i => okOrNone (ec i))) ∧
      ((processDocument mimeType extractRes cleanupCall ec).chunks.map
          (fun c => (c.content, c.chunkIndex)) =
        (processDocument mimeType extractRes cleanupCall ec').chunks.map
          (fun c => (c.content, c.chunkIndex))) := by
  simp only [processDocument.eq_def]
  split
  · simp
  · split
    · simp
    · split
      · simp
      · refine ⟨?_, ?_, ?_⟩
        · rw [List.map_map, List.length_map]
          rw [show ((fun c : ChunkRecord => c.chunkIndex) ∘ (fun ic : Nat × Str =>
              ({ content := ic.2,
                 embedding := match ec ic.1 with
                   | .ok v => some v
                   | .error _ => none,
                 chunkIndex := ic.1 } : ChunkRecord))) = Prod.fst from rfl]
          rw [List.enum_eq_enumFrom, List.enumFrom_map_fst, List.enumFrom_length,
            List.range_eq_range']
        · rw [List.map_map, List.map_map, List.map_map]
          refine List.map_congr_left (fun ic _ => ?_)
          rcases hic : ec ic.1 with e | v <;> simp [okOrNone, hic]
        · rw [List.map_map, List.map_map]
          exact List.map_congr_left (fun ic _ => rfl)
